import Mathlib

/-!
Verification of the go-caskdb storage engine (a Bitcask-style append-only
key-value store) against its natural-language specification.

The embedding models byte sequences as `List Nat` whose elements stand for
`uint8` values (every byte produced by the encoder is `< 256`, and the
decoder reduces each byte modulo 256, mirroring the `uint8` type of real
file contents).  Go's 32-bit unsigned integers (`timestamp`, `keySize`,
`valueSize`, `writePos`, the fields of `KeyEntry`) are modelled as `Nat`
with every arithmetic update reduced modulo `2^32`, exactly where the Go
code performs `uint32` arithmetic.
-/

namespace CaskDB

/-- `2^32`, the modulus of Go's `uint32` arithmetic. -/
def u32 : Nat := 4294967296

/-- Size in bytes of the fixed record header `[timestamp|keySize|valueSize]`. -/
def headerSize : Nat := 12

/-- Little-endian 4-byte encoding of a 32-bit integer (the single fixed byte
order the spec requires for all header fields). -/
def u32le (n : Nat) : List Nat :=
  [n % 256, n / 256 % 256, n / 65536 % 256, n / 16777216 % 256]

/-- Little-endian decoding of (up to) four bytes back into an integer.  Each
byte is reduced modulo 256 because file contents are `uint8` values. -/
def u32dec (bs : List Nat) : Nat :=
  bs.getD 0 0 % 256 + 256 * (bs.getD 1 0 % 256) + 65536 * (bs.getD 2 0 % 256)
    + 16777216 * (bs.getD 3 0 % 256)

/-- Modelled from the spec: `encodeKV` (called `encodeRecord` in the spec) of
the record codec, whose source file is not under `src/`; only its callers in
`src/main.go` are.  It builds the 12-byte header from the timestamp and the
key/value lengths and returns the total size together with
`header ++ key ++ value`. -/
def encodeKV (timestamp : Nat) (key : List Nat) (value : List Nat) :
    Nat × List Nat :=
  (headerSize + key.length + value.length,
    u32le timestamp ++ u32le key.length ++ u32le value.length ++ key ++ value)

/-- Modelled from the spec: `decodeHeader` of the record codec (source file
not under `src/`): a total function on any buffer, reading the three
little-endian 32-bit header fields. -/
def decodeHeader (bs : List Nat) : Nat × Nat × Nat :=
  (u32dec (bs.take 4), u32dec ((bs.drop 4).take 4), u32dec ((bs.drop 8).take 4))

/-- Modelled from the spec: `decodeKV` (called `decodeRecord` in the spec) of
the record codec (source file not under `src/`): slices the buffer using the
sizes embedded in its own header. -/
def decodeKV (bs : List Nat) : Nat × List Nat × List Nat :=
  let h := decodeHeader bs
  (h.1, (bs.drop headerSize).take h.2.1,
    (bs.drop (headerSize + h.2.1)).take h.2.2)

theorem u32le_length (n : Nat) : (u32le n).length = 4 := rfl

theorem u32dec_u32le (n : Nat) : u32dec (u32le n) = n % u32 := by
  simp [u32le, u32dec, u32]
  omega

theorem encodeKV_bytes_length (t : Nat) (k v : List Nat) :
    (encodeKV t k v).2.length = headerSize + k.length + v.length := by
  simp [encodeKV, u32le, headerSize]
  omega

theorem encodeKV_size (t : Nat) (k v : List Nat) :
    (encodeKV t k v).1 = headerSize + k.length + v.length := rfl

/-- Decoding the header of an encoded record (with any trailing bytes)
recovers the timestamp and the two lengths, reduced modulo `2^32`. -/
theorem decodeHeader_encodeKV (t : Nat) (k v rest : List Nat) :
    decodeHeader ((encodeKV t k v).2 ++ rest) =
      (t % u32, k.length % u32, v.length % u32) := by
  have ht4 := u32le_length t
  have hk4 := u32le_length k.length
  have hv4 := u32le_length v.length
  simp only [encodeKV, decodeHeader, List.append_assoc]
  rw [List.take_left' ht4, List.drop_left' ht4, List.take_left' hk4]
  rw [show (8 : Nat) = 4 + 4 by rfl]
  rw [← List.drop_drop, List.drop_left' ht4, List.drop_left' hk4,
    List.take_left' hv4]
  rw [u32dec_u32le, u32dec_u32le, u32dec_u32le]

/-- Dropping the 12-byte header of an encoded record (with any trailing
bytes) leaves `key ++ value ++ rest`. -/
theorem drop_header_encodeKV (t : Nat) (k v rest : List Nat) :
    ((encodeKV t k v).2 ++ rest).drop headerSize = k ++ (v ++ rest) := by
  simp only [encodeKV, List.append_assoc]
  have : (u32le t ++ (u32le k.length ++ (u32le v.length ++ (k ++ (v ++ rest)))))
      = (u32le t ++ u32le k.length ++ u32le v.length) ++ (k ++ (v ++ rest)) := by
    simp [List.append_assoc]
  rw [this]
  exact List.drop_left' (by simp [u32le, headerSize])

/-- Round-trip of the record codec: decoding an encoded record recovers the
original triple, provided the timestamp and the two lengths fit in 32 bits. -/
theorem decodeKV_encodeKV (t : Nat) (k v : List Nat) (ht : t < u32)
    (hk : k.length < u32) (hv : v.length < u32) :
    decodeKV (encodeKV t k v).2 = (t, k, v) := by
  have hhdr : decodeHeader (encodeKV t k v).2 = (t, k.length, v.length) := by
    have h := decodeHeader_encodeKV t k v []
    rw [List.append_nil] at h
    rw [h, Nat.mod_eq_of_lt ht, Nat.mod_eq_of_lt hk, Nat.mod_eq_of_lt hv]
  have hdrop : (encodeKV t k v).2.drop headerSize = k ++ v := by
    have h := drop_header_encodeKV t k v []
    rw [List.append_nil] at h
    rw [List.append_nil] at h
    exact h
  simp only [decodeKV, hhdr, Prod.mk.injEq]
  refine ⟨trivial, ?_, ?_⟩
  · rw [hdrop, List.take_left]
  · rw [← List.drop_drop, hdrop, List.drop_left, List.take_length]

/-- In-memory directory entry (`KeyEntry` in Go; its declaring file is not
under `src/`, but its three `uint32` fields are fixed by the construction
sites in `src/main.go` lines 140 and 177 and by the spec's data model). -/
structure KeyEntry where
  timestamp : Nat
  writeOffSet : Nat
  totalSize : Nat
deriving Repr, DecidableEq

/-- Lookup in the key directory, modelling `d.KeyDir[key]` on a Go map
represented as an association list with at most one binding per key. -/
def lookupKD : List (List Nat × KeyEntry) → List Nat → Option KeyEntry
  | [], _ => none
  | (k, e) :: rest, key => if k = key then some e else lookupKD rest key

/-- Insert/overwrite in the key directory, modelling
`d.KeyDir[key] = entry`. -/
def insertKD : List (List Nat × KeyEntry) → List Nat → KeyEntry →
    List (List Nat × KeyEntry)
  | [], key, e => [(key, e)]
  | (k, e0) :: rest, key, e =>
      if k = key then (key, e) :: rest else (k, e0) :: insertKD rest key e

/-- The store state of `src/main.go`: the backing file's bytes, the read/write
offset of the open file handle (`cursor`; the file is opened with `O_APPEND`,
so writes always go to the end regardless of it), the `uint32` append
position `writePos`, and the in-memory key directory. -/
structure DiskStore where
  file : List Nat
  cursor : Nat
  writePos : Nat
  KeyDir : List (List Nat × KeyEntry)
deriving Repr, DecidableEq

/-- A Go `make([]byte, n)` buffer after a single `Read` that returned
`b.length` bytes: the bytes read followed by the buffer's zero tail. -/
def padTo (n : Nat) (b : List Nat) : List Nat :=
  b.take n ++ List.replicate (n - b.length) 0

/-- The recovery loop of `DiskStore.LoadKeys` (src/main.go lines 112-142),
reading records sequentially from the remaining bytes `rest` of the file.
Each `file.Read(buffer)` is modelled with Go's semantics on a regular file:
at end-of-file with a non-empty buffer it returns `io.EOF` (the code then
breaks out of the loop WITHOUT signalling an error); otherwise it returns
the available bytes, up to the buffer size, with a nil error, leaving the
zero tail of the buffer in place when fewer bytes remain.  `fuel` bounds the
recursion; every iteration consumes at least one byte, so
`fuel = rest.length` always suffices (see `loadKeysLoopF_fuel`), and the
fuel-exhaustion result coincides with the clean end-of-file result. -/
def loadKeysLoopF : Nat → List Nat → Nat → List (List Nat × KeyEntry) →
    List (List Nat × KeyEntry) × Nat
  | 0, _, pos, kd => (kd, pos)
  | _ + 1, [], pos, kd => (kd, pos)
  | fuel + 1, b :: bs, pos, kd =>
      let rest := b :: bs
      let buffer := padTo headerSize (rest.take headerSize)
      let rest1 := rest.drop headerSize
      let h := decodeHeader buffer
      let keySize := h.2.1
      let valueSize := h.2.2
      if 0 < keySize ∧ rest1 = [] then (kd, pos)
      else
        let key := padTo keySize (rest1.take keySize)
        let rest2 := rest1.drop keySize
        if 0 < valueSize ∧ rest2 = [] then (kd, pos)
        else
          let rest3 := rest2.drop valueSize
          let totalSize := (headerSize + keySize + valueSize) % u32
          loadKeysLoopF fuel rest3 ((pos + totalSize) % u32)
            (insertKD kd key ⟨h.1, pos, totalSize⟩)

/-- `DiskStore.LoadKeys` (src/main.go lines 104-144): scan the whole file
from offset 0, returning the rebuilt key directory and the final `writePos`.
No error is ever returned: all failure modes `break` out of the loop. -/
def LoadKeys (bytes : List Nat) : List (List Nat × KeyEntry) × Nat :=
  loadKeysLoopF bytes.length bytes 0 []

/-- `NewDiskStore` (src/main.go lines 89-102) on the happy path of
`os.OpenFile`: if a file already exists at the path (with content
`diskBytes`), replay it via `LoadKeys`; otherwise start from an empty file
that `O_CREATE` just created. -/
def NewDiskStore (fileExists : Bool) (diskBytes : List Nat) : DiskStore :=
  if fileExists then
    let r := LoadKeys diskBytes
    { file := diskBytes, cursor := 0, writePos := r.2, KeyDir := r.1 }
  else
    { file := [], cursor := 0, writePos := 0, KeyDir := [] }

/-- Result of `DiskStore.Get`: either a value together with the store state
after the call, or `os.Exit(code)` terminating the process (src/main.go
lines 157 and 163). -/
inductive GetOutcome where
  | ok (value : List Nat) (d : DiskStore)
  | exit (code : Nat)
deriving Repr, DecidableEq

/-- The value returned by a `Get` that did not terminate the process. -/
def GetOutcome.valueOf : GetOutcome → Option (List Nat)
  | .ok v _ => some v
  | .exit _ => none

/-- `DiskStore.Get` (src/main.go lines 146-167).  A miss returns the empty
string without touching the file.  On a hit the code seeks to
`writeOffSet` (seeking never fails on an open regular file) and issues one
`Read` into a `totalSize` buffer: at end-of-file that read returns `io.EOF`
and the code calls `os.Exit(1)`; otherwise the buffer holds the available
bytes (zero-padded if the file ends early) and is decoded, and the handle's
offset has advanced by the number of bytes read. -/
def DiskStore.Get (d : DiskStore) (key : List Nat) : GetOutcome :=
  match lookupKD d.KeyDir key with
  | none => .ok [] d
  | some e =>
      if 0 < e.totalSize ∧ d.file.length ≤ e.writeOffSet then .exit 1
      else
        let chunk := (d.file.drop e.writeOffSet).take e.totalSize
        let buffer := padTo e.totalSize chunk
        .ok (decodeKV buffer).2.2
          { d with cursor := e.writeOffSet + chunk.length }

/-- `DiskStore.Set` (src/main.go lines 169-180) on the happy path of
`d.file.Write`: encode the record with the `uint32` timestamp, append it
(`O_APPEND` writes at the current end of file and leaves the handle's offset
there), upsert the directory entry at the old `writePos` with the record's
size as a `uint32`, and advance the `uint32` `writePos`. -/
def DiskStore.Set (d : DiskStore) (timestamp : Nat) (key value : List Nat) :
    DiskStore :=
  let ts := timestamp % u32
  let r := encodeKV ts key value
  { file := d.file ++ r.2,
    cursor := d.file.length + r.2.length,
    writePos := (d.writePos + r.1 % u32) % u32,
    KeyDir := insertKD d.KeyDir key ⟨ts, d.writePos, r.1 % u32⟩ }

/-- Result of `DiskStore.Set` including its failure branch: either the
updated store, or `os.Exit(code)` terminating the process. -/
inductive SetOutcome where
  | ok (d : DiskStore)
  | exit (code : Nat)
deriving Repr, DecidableEq

/-- `DiskStore.Set` (src/main.go lines 169-180) including the write-failure
branch: when `d.file.Write(data)` returns an error, the code prints a
message and calls `os.Exit(1)` (line 175) — there is no error return, and
the key directory is not touched on that path. -/
def DiskStore.SetWith (d : DiskStore) (timestamp : Nat)
    (key value : List Nat) (writeFails : Bool) : SetOutcome :=
  if writeFails then .exit 1 else .ok (d.Set timestamp key value)

/-- `DiskStore.Close` (src/main.go lines 182-188) on the happy path:
releases the handle; the bytes that persist on disk are the file's bytes. -/
def DiskStore.Close (d : DiskStore) : List Nat := d.file

/-- One `Set` call: a timestamp (what `uint32(time.Now().Unix())` returned)
together with the key and value bytes. -/
abbrev Op : Type := Nat × List Nat × List Nat

/-- A sequence of successful `Set` calls, applied in order. -/
def applySets (d : DiskStore) : List Op → DiskStore
  | [] => d
  | (t, k, v) :: rest => applySets (d.Set t k v) rest

/-- On-disk size of one record: `headerSize + keySize + valueSize`. -/
def recSize (op : Op) : Nat := headerSize + op.2.1.length + op.2.2.length

/-- The bytes a sequence of `Set` calls appends to the file. -/
def opsBytes (ops : List Op) : List Nat :=
  (ops.map (fun op => (encodeKV (op.1 % u32) op.2.1 op.2.2).2)).flatten

/-- Sum of the records' actual on-disk sizes. -/
def sumRecSizes (ops : List Op) : Nat := (ops.map recSize).sum

/-- Sum of the records' sizes as Go computes them, each truncated to
`uint32` before being added to `writePos`. -/
def sumSizes32 (ops : List Op) : Nat := (ops.map (fun op => recSize op % u32)).sum

theorem padTo_eq_self {n : Nat} {b : List Nat} (h : b.length = n) :
    padTo n b = b := by
  subst h
  simp [padTo]

theorem lookupKD_insertKD_self (kd : List (List Nat × KeyEntry))
    (k : List Nat) (e : KeyEntry) : lookupKD (insertKD kd k e) k = some e := by
  induction kd with
  | nil => simp [insertKD, lookupKD]
  | cons p rest ih =>
      by_cases h : p.1 = k
      · simp [insertKD, h, lookupKD]
      · simp [insertKD, h, lookupKD, ih]

theorem lookupKD_insertKD_cases {kd : List (List Nat × KeyEntry)}
    {k k2 : List Nat} {e e2 : KeyEntry}
    (h : lookupKD (insertKD kd k e) k2 = some e2) :
    e2 = e ∨ lookupKD kd k2 = some e2 := by
  induction kd with
  | nil =>
      simp only [insertKD, lookupKD] at h
      by_cases hk : k = k2
      · simp [hk] at h
        exact Or.inl h.symm
      · simp [hk] at h
  | cons p rest ih =>
      by_cases hp : p.1 = k
      · simp only [insertKD, hp, if_pos] at h
        by_cases hk : k = k2
        · simp [lookupKD, hk] at h
          exact Or.inl h.symm
        · simp only [lookupKD, if_neg hk] at h
          right
          simp [lookupKD, hp, hk, h]
      · simp only [insertKD, hp, if_neg, ite_false] at h
        by_cases hpk : p.1 = k2
        · simp only [lookupKD, hpk, if_pos] at h
          right
          simp [lookupKD, hpk, h]
        · simp only [lookupKD, hpk, if_neg, ite_false] at h
          rcases ih h with h1 | h1
          · exact Or.inl h1
          · right
            simp [lookupKD, hpk, h1]

/-- `decodeHeader` only reads the first `headerSize` bytes of its buffer. -/
theorem decodeHeader_take (bs : List Nat) :
    decodeHeader (bs.take headerSize) = decodeHeader bs := by
  simp only [decodeHeader, headerSize, List.take_take, List.drop_take]
  norm_num

/-- One iteration of the recovery loop on a well-formed record at the head of
the remaining bytes: it loads exactly that record's directory entry and
moves on past its bytes. -/
theorem loadStepF (f t : Nat) (k v rest : List Nat) (pos : Nat)
    (kd : List (List Nat × KeyEntry)) (hk : k.length < u32)
    (hv : v.length < u32) :
    loadKeysLoopF (f + 1) ((encodeKV t k v).2 ++ rest) pos kd =
      loadKeysLoopF f rest
        ((pos + (headerSize + k.length + v.length) % u32) % u32)
        (insertKD kd k
          ⟨t % u32, pos, (headerSize + k.length + v.length) % u32⟩) := by
  obtain ⟨b, bs, hbs⟩ : ∃ b bs, (encodeKV t k v).2 ++ rest = b :: bs := by
    cases hnil : (encodeKV t k v).2 ++ rest with
    | nil =>
        rw [List.append_eq_nil] at hnil
        have := encodeKV_bytes_length t k v
        rw [hnil.1] at this
        simp [headerSize] at this
        exact (by omega : False).elim
    | cons b bs => exact ⟨b, bs, rfl⟩
  rw [hbs]
  simp only [loadKeysLoopF]
  rw [← hbs]
  have hlen := encodeKV_bytes_length t k v
  have hbuf : padTo headerSize (((encodeKV t k v).2 ++ rest).take headerSize) =
      ((encodeKV t k v).2 ++ rest).take headerSize := by
    apply padTo_eq_self
    rw [List.length_take, List.length_append, hlen]
    omega
  rw [hbuf, decodeHeader_take]
  have hdec : decodeHeader ((encodeKV t k v).2 ++ rest) =
      (t % u32, k.length, v.length) := by
    rw [decodeHeader_encodeKV, Nat.mod_eq_of_lt hk, Nat.mod_eq_of_lt hv]
  rw [hdec, drop_header_encodeKV]
  have hc1 : ¬(0 < (t % u32, k.length, v.length).2.1 ∧ k ++ (v ++ rest) = []) := by
    rintro ⟨h1, h2⟩
    rw [List.append_eq_nil] at h2
    rw [h2.1] at h1
    simp at h1
  rw [if_neg hc1]
  have hkey : padTo (t % u32, k.length, v.length).2.1
      ((k ++ (v ++ rest)).take (t % u32, k.length, v.length).2.1) = k := by
    simp only [List.take_left]
    exact padTo_eq_self rfl
  rw [hkey, List.drop_left]
  have hc2 : ¬(0 < (t % u32, k.length, v.length).2.2 ∧ v ++ rest = []) := by
    rintro ⟨h1, h2⟩
    rw [List.append_eq_nil] at h2
    rw [h2.1] at h1
    simp at h1
  rw [if_neg hc2, List.drop_left]

/-- Fuel adequacy for the recovery loop: any fuel of at least `rest.length`
gives the same result (each iteration consumes at least one byte), so
`LoadKeys`'s choice `fuel = bytes.length` is not a restriction. -/
theorem loadKeysLoopF_fuel : ∀ (f g : Nat) (rest : List Nat) (pos : Nat)
    (kd : List (List Nat × KeyEntry)), rest.length ≤ f → rest.length ≤ g →
    loadKeysLoopF f rest pos kd = loadKeysLoopF g rest pos kd := by
  intro f
  induction f with
  | zero =>
      intro g rest pos kd hf _
      have : rest = [] := List.eq_nil_of_length_eq_zero (Nat.le_zero.mp hf)
      subst this
      cases g <;> rfl
  | succ f ih =>
      intro g rest pos kd hf hg
      cases rest with
      | nil => cases g <;> rfl
      | cons b bs =>
          have hg1 : 0 < g := by simp at hg; omega
          obtain ⟨g', rfl⟩ : ∃ g', g = g' + 1 :=
            ⟨g - 1, by omega⟩
          simp only [loadKeysLoopF]
          simp only [List.length_cons] at hf hg
          split
          · rfl
          · split
            · rfl
            · apply ih
              · simp [headerSize]
                omega
              · simp [headerSize]
                omega

/-- The key directory and write position that a sequence of `Set` calls
produces, as a function of the starting `writePos` and directory only (the
`Set` path never reads the file's bytes to update them). -/
def buildKD (ops : List Op) (pos : Nat) (kd : List (List Nat × KeyEntry)) :
    List (List Nat × KeyEntry) × Nat :=
  let d := applySets { file := [], cursor := 0, writePos := pos, KeyDir := kd } ops
  (d.KeyDir, d.writePos)

/-- The directory and write position after `applySets` depend only on the
starting directory and write position. -/
theorem applySets_proj_congr : ∀ (ops : List Op) (d1 d2 : DiskStore),
    d1.writePos = d2.writePos → d1.KeyDir = d2.KeyDir →
    (applySets d1 ops).writePos = (applySets d2 ops).writePos ∧
      (applySets d1 ops).KeyDir = (applySets d2 ops).KeyDir := by
  intro ops
  induction ops with
  | nil => intro d1 d2 hw hk; exact ⟨hw, hk⟩
  | cons op rest ih =>
      intro d1 d2 hw hk
      obtain ⟨t, k, v⟩ := op
      simp only [applySets]
      exact ih _ _ (by simp [DiskStore.Set, hw]) (by simp [DiskStore.Set, hw, hk])

theorem buildKD_eq_applySets (ops : List Op) (d : DiskStore) :
    buildKD ops d.writePos d.KeyDir =
      ((applySets d ops).KeyDir, (applySets d ops).writePos) := by
  obtain ⟨h1, h2⟩ := applySets_proj_congr ops
    { file := [], cursor := 0, writePos := d.writePos, KeyDir := d.KeyDir } d
    rfl rfl
  simp [buildKD, h1, h2]

theorem buildKD_cons (t : Nat) (k v : List Nat) (ops : List Op) (pos : Nat)
    (kd : List (List Nat × KeyEntry)) :
    buildKD ((t, k, v) :: ops) pos kd =
      buildKD ops ((pos + recSize (t, k, v) % u32) % u32)
        (insertKD kd k ⟨t % u32, pos, recSize (t, k, v) % u32⟩) := by
  simp only [buildKD, applySets]
  obtain ⟨h1, h2⟩ := applySets_proj_congr ops
    (DiskStore.Set { file := [], cursor := 0, writePos := pos, KeyDir := kd } t k v)
    { file := [], cursor := 0,
      writePos := (pos + recSize (t, k, v) % u32) % u32,
      KeyDir := insertKD kd k ⟨t % u32, pos, recSize (t, k, v) % u32⟩ }
    (by simp [DiskStore.Set, recSize, encodeKV_size])
    (by simp [DiskStore.Set, recSize, encodeKV_size])
  rw [h1, h2]

theorem opsBytes_nil : opsBytes [] = [] := rfl

theorem opsBytes_cons (op : Op) (ops : List Op) :
    opsBytes (op :: ops) =
      (encodeKV (op.1 % u32) op.2.1 op.2.2).2 ++ opsBytes ops := by
  simp [opsBytes]

theorem opsBytes_cons_mk (t : Nat) (k v : List Nat) (ops : List Op) :
    opsBytes ((t, k, v) :: ops) =
      (encodeKV (t % u32) k v).2 ++ opsBytes ops := by
  simp [opsBytes]

theorem opsBytes_append (l1 l2 : List Op) :
    opsBytes (l1 ++ l2) = opsBytes l1 ++ opsBytes l2 := by
  simp [opsBytes]

theorem opsBytes_length (ops : List Op) :
    (opsBytes ops).length = sumRecSizes ops := by
  induction ops with
  | nil => rfl
  | cons op rest ih =>
      rw [opsBytes_cons]
      simp only [List.length_append, ih, sumRecSizes, List.map_cons,
        List.sum_cons]
      rw [encodeKV_bytes_length]
      rfl

theorem length_le_sumRecSizes (ops : List Op) :
    ops.length ≤ sumRecSizes ops := by
  induction ops with
  | nil => simp [sumRecSizes]
  | cons op rest ih =>
      simp only [sumRecSizes, List.map_cons, List.sum_cons, List.length_cons]
      have : 1 ≤ recSize op := by
        simp only [recSize, headerSize]
        omega
      simp only [sumRecSizes] at ih
      omega

/-- Replaying the bytes written by a sequence of `Set` calls rebuilds
exactly the directory and write position that those calls produced, provided
each record's key and value lengths fit in 32 bits. -/
theorem loadF_opsBytes : ∀ (ops : List Op) (f : Nat) (pos : Nat)
    (kd : List (List Nat × KeyEntry)),
    (∀ op ∈ ops, op.2.1.length < u32 ∧ op.2.2.length < u32) →
    ops.length ≤ f →
    loadKeysLoopF f (opsBytes ops) pos kd = buildKD ops pos kd := by
  intro ops
  induction ops with
  | nil =>
      intro f pos kd _ _
      cases f <;> rfl
  | cons op rest ih =>
      intro f pos kd hb hf
      obtain ⟨t, k, v⟩ := op
      obtain ⟨f', rfl⟩ : ∃ f', f = f' + 1 := ⟨f - 1, by simp at hf; omega⟩
      rw [opsBytes_cons]
      have hk := (hb (t, k, v) (List.mem_cons_self _ _)).1
      have hv := (hb (t, k, v) (List.mem_cons_self _ _)).2
      rw [loadStepF f' (t % u32) k v (opsBytes rest) pos kd hk hv]
      rw [Nat.mod_mod]
      rw [ih f' _ _ (fun op hop => hb op (List.mem_cons_of_mem _ hop))
        (by simp at hf; omega)]
      rw [buildKD_cons]
      rfl

theorem u32_pos : 0 < u32 := by decide

theorem applySets_append (d : DiskStore) : ∀ (l1 l2 : List Op),
    applySets d (l1 ++ l2) = applySets (applySets d l1) l2 := by
  intro l1
  induction l1 generalizing d with
  | nil => intro l2; rfl
  | cons op rest ih =>
      intro l2
      obtain ⟨t, k, v⟩ := op
      simp only [List.cons_append, applySets]
      exact ih _ _

theorem applySets_file : ∀ (ops : List Op) (d : DiskStore),
    (applySets d ops).file = d.file ++ opsBytes ops := by
  intro ops
  induction ops with
  | nil => intro d; simp [applySets, opsBytes]
  | cons op rest ih =>
      intro d
      obtain ⟨t, k, v⟩ := op
      simp only [applySets]
      rw [ih, opsBytes_cons]
      simp [DiskStore.Set, List.append_assoc]

theorem sumRecSizes_cons (op : Op) (ops : List Op) :
    sumRecSizes (op :: ops) = recSize op + sumRecSizes ops := by
  simp [sumRecSizes]

theorem sumSizes32_cons (op : Op) (ops : List Op) :
    sumSizes32 (op :: ops) = recSize op % u32 + sumSizes32 ops := by
  simp [sumSizes32]

theorem applySets_writePos : ∀ (ops : List Op) (d : DiskStore),
    d.writePos < u32 →
    (applySets d ops).writePos = (d.writePos + sumSizes32 ops) % u32 := by
  intro ops
  induction ops with
  | nil =>
      intro d hd
      simp [applySets, sumSizes32, Nat.mod_eq_of_lt hd]
  | cons op rest ih =>
      intro d hd
      obtain ⟨t, k, v⟩ := op
      simp only [applySets]
      rw [ih _ (Nat.mod_lt _ u32_pos)]
      simp only [DiskStore.Set, encodeKV_size, sumSizes32_cons]
      rw [Nat.mod_add_mod]
      congr 1
      simp only [recSize]
      omega

/-- When the records' total size stays below `2^32`, the `uint32` size
arithmetic never truncates. -/
theorem sumSizes32_eq_sumRecSizes : ∀ (ops : List Op),
    sumRecSizes ops < u32 → sumSizes32 ops = sumRecSizes ops := by
  intro ops
  induction ops with
  | nil => intro _; rfl
  | cons op rest ih =>
      intro h
      rw [sumRecSizes_cons] at h
      rw [sumSizes32_cons, sumRecSizes_cons,
        Nat.mod_eq_of_lt (by omega), ih (by omega)]

theorem sumSizes32_replicate (n : Nat) (op : Op) :
    sumSizes32 (List.replicate n op) = n * (recSize op % u32) := by
  induction n with
  | zero => simp [sumSizes32]
  | succ n ih =>
      rw [List.replicate_succ, sumSizes32_cons, ih]
      ring

theorem sumRecSizes_replicate (n : Nat) (op : Op) :
    sumRecSizes (List.replicate n op) = n * recSize op := by
  induction n with
  | zero => simp [sumRecSizes]
  | succ n ih =>
      rw [List.replicate_succ, sumRecSizes_cons, ih]
      ring

/-- Reading back right after `Set` returns exactly the value just written,
for any store whose `writePos` equals the file length, provided the new
record's size fits in 32 bits.  The returned store is the post-`Set` store
itself (the hit re-positions the handle at the record's end, which is where
the `O_APPEND` write already left it). -/
theorem get_set_last (d : DiskStore) (t : Nat) (k v : List Nat)
    (hwp : d.writePos = d.file.length)
    (hs : headerSize + k.length + v.length < u32) :
    (d.Set t k v).Get k = .ok v (d.Set t k v) := by
  have hsz : (headerSize + k.length + v.length) % u32 =
      headerSize + k.length + v.length := Nat.mod_eq_of_lt hs
  have henc := encodeKV_bytes_length (t % u32) k v
  simp only [DiskStore.Get, DiskStore.Set, encodeKV_size,
    lookupKD_insertKD_self]
  rw [hsz]
  have hcond : ¬(0 < headerSize + k.length + v.length ∧
      (d.file ++ (encodeKV (t % u32) k v).2).length ≤ d.writePos) := by
    rintro ⟨_, h2⟩
    rw [List.length_append, henc, hwp] at h2
    simp [headerSize] at h2
  rw [if_neg hcond]
  have hchunk : ((d.file ++ (encodeKV (t % u32) k v).2).drop
      d.writePos).take (headerSize + k.length + v.length) =
      (encodeKV (t % u32) k v).2 := by
    rw [hwp, List.drop_left]
    rw [← henc, List.take_length]
  rw [hchunk, padTo_eq_self henc]
  rw [decodeKV_encodeKV _ _ _ (Nat.mod_lt _ u32_pos) (by omega) (by omega)]
  simp only [GetOutcome.ok.injEq]
  refine ⟨trivial, ?_⟩
  rw [hwp, henc]

/-- Recovery on the file written by a sequence of `Set` calls from a fresh
store rebuilds that run's directory and write position exactly. -/
theorem LoadKeys_opsBytes (ops : List Op)
    (hb : ∀ op ∈ ops, op.2.1.length < u32 ∧ op.2.2.length < u32) :
    LoadKeys (opsBytes ops) = buildKD ops 0 [] := by
  rw [LoadKeys]
  apply loadF_opsBytes ops _ 0 [] hb
  rw [opsBytes_length]
  exact length_le_sumRecSizes ops

/-- Reopening a store on the bytes of a fresh-store run yields the very same
key directory and write position as the live store at the end of the run. -/
theorem NewDiskStore_reopen (ops : List Op)
    (hb : ∀ op ∈ ops, op.2.1.length < u32 ∧ op.2.2.length < u32) :
    NewDiskStore true (applySets (NewDiskStore false []) ops).file =
      { file := opsBytes ops, cursor := 0,
        writePos := (applySets (NewDiskStore false []) ops).writePos,
        KeyDir := (applySets (NewDiskStore false []) ops).KeyDir } := by
  have hf : (applySets (NewDiskStore false []) ops).file = opsBytes ops := by
    rw [applySets_file]
    rfl
  have hbuild := buildKD_eq_applySets ops (NewDiskStore false [])
  rw [show (NewDiskStore false []).writePos = 0 from rfl,
    show (NewDiskStore false []).KeyDir = [] from rfl] at hbuild
  rw [hf]
  simp only [NewDiskStore, if_pos, LoadKeys_opsBytes ops hb, hbuild]

/-- The index-bounds invariant: every directory entry lies entirely below
the given position. -/
def KDinv (kd : List (List Nat × KeyEntry)) (pos : Nat) : Prop :=
  ∀ k e, lookupKD kd k = some e → e.writeOffSet + e.totalSize ≤ pos

theorem KDinv_nil (pos : Nat) : KDinv [] pos := by
  intro k e h
  simp [lookupKD] at h

theorem KDinv_mono {kd : List (List Nat × KeyEntry)} {pos pos2 : Nat}
    (h : KDinv kd pos) (hle : pos ≤ pos2) : KDinv kd pos2 := by
  intro k e he
  exact Nat.le_trans (h k e he) hle

theorem KDinv_insert {kd : List (List Nat × KeyEntry)} {pos : Nat}
    {k : List Nat} {e : KeyEntry} (h : KDinv kd pos)
    (he : e.writeOffSet + e.totalSize ≤ pos) :
    KDinv (insertKD kd k e) pos := by
  intro k2 e2 h2
  rcases lookupKD_insertKD_cases h2 with h3 | h3
  · rw [h3]
    exact he
  · exact h k2 e2 h3

/-- Marker that the `uint32` accumulation of `writePos` never wraps during
the recovery scan of the given bytes starting at the given position; mirrors
the recursion of `loadKeysLoopF`. -/
def loadNoWrapF : Nat → List Nat → Nat → Bool
  | 0, _, _ => true
  | _ + 1, [], _ => true
  | fuel + 1, b :: bs, pos =>
      let rest := b :: bs
      let buffer := padTo headerSize (rest.take headerSize)
      let rest1 := rest.drop headerSize
      let h := decodeHeader buffer
      let keySize := h.2.1
      let valueSize := h.2.2
      if 0 < keySize ∧ rest1 = [] then true
      else
        let rest2 := rest1.drop keySize
        if 0 < valueSize ∧ rest2 = [] then true
        else
          let rest3 := rest2.drop valueSize
          let totalSize := (headerSize + keySize + valueSize) % u32
          decide (pos + totalSize < u32) &&
            loadNoWrapF fuel rest3 (pos + totalSize)

/-- The recovery loop preserves the index-bounds invariant whenever its
`uint32` position arithmetic does not wrap, and its final position only
grows. -/
theorem loadKeysLoopF_inv : ∀ (f : Nat) (rest : List Nat) (pos : Nat)
    (kd : List (List Nat × KeyEntry)), loadNoWrapF f rest pos = true →
    KDinv kd pos → pos < u32 →
    KDinv (loadKeysLoopF f rest pos kd).1 (loadKeysLoopF f rest pos kd).2 ∧
      pos ≤ (loadKeysLoopF f rest pos kd).2 ∧
      (loadKeysLoopF f rest pos kd).2 < u32 := by
  intro f
  induction f with
  | zero =>
      intro rest pos kd _ hkd hpos
      exact ⟨hkd, Nat.le_refl _, hpos⟩
  | succ f ih =>
      intro rest pos kd hnw hkd hpos
      cases rest with
      | nil => exact ⟨hkd, Nat.le_refl _, hpos⟩
      | cons b bs =>
          simp only [loadKeysLoopF, loadNoWrapF] at hnw ⊢
          split
          · exact ⟨hkd, Nat.le_refl _, hpos⟩
          · rw [if_neg (by assumption)] at hnw
            split
            · exact ⟨hkd, Nat.le_refl _, hpos⟩
            · rw [if_neg (by assumption)] at hnw
              rw [Bool.and_eq_true, decide_eq_true_eq] at hnw
              obtain ⟨hlt, hnw2⟩ := hnw
              rw [Nat.mod_eq_of_lt hlt]
              have hstep := ih _ _
                (insertKD kd
                  (padTo (decodeHeader (padTo headerSize
                      ((b :: bs).take headerSize))).2.1
                    (((b :: bs).drop headerSize).take
                      (decodeHeader (padTo headerSize
                        ((b :: bs).take headerSize))).2.1))
                  ⟨(decodeHeader (padTo headerSize
                      ((b :: bs).take headerSize))).1, pos,
                    (headerSize +
                      (decodeHeader (padTo headerSize
                        ((b :: bs).take headerSize))).2.1 +
                      (decodeHeader (padTo headerSize
                        ((b :: bs).take headerSize))).2.2) % u32⟩)
                hnw2
                (KDinv_insert (KDinv_mono hkd (Nat.le_add_right _ _)) (by simp))
                hlt
              refine ⟨hstep.1, ?_, hstep.2.2⟩
              exact Nat.le_trans (Nat.le_add_right _ _) hstep.2.1

/-- Whether the `uint32` accumulation of `writePos` wraps while recovering
the given file. -/
def LoadNoWrap (bytes : List Nat) : Bool := loadNoWrapF bytes.length bytes 0

/-- Successful `Set` calls preserve the index-bounds invariant as long as
the `uint32` `writePos` arithmetic does not wrap. -/
theorem applySets_inv : ∀ (ops : List Op) (d : DiskStore),
    KDinv d.KeyDir d.writePos → d.writePos + sumSizes32 ops < u32 →
    KDinv (applySets d ops).KeyDir (applySets d ops).writePos := by
  intro ops
  induction ops with
  | nil =>
      intro d h _
      exact h
  | cons op rest ih =>
      intro d h hsum
      obtain ⟨t, k, v⟩ := op
      have hrs : recSize (t, k, v) = headerSize + k.length + v.length := rfl
      rw [sumSizes32_cons, hrs] at hsum
      have hlt : d.writePos + (headerSize + k.length + v.length) % u32 < u32 := by
        omega
      simp only [applySets]
      apply ih
      · simp only [DiskStore.Set, encodeKV_size]
        rw [Nat.mod_eq_of_lt hlt]
        apply KDinv_insert (KDinv_mono h (Nat.le_add_right _ _))
        simp
      · simp only [DiskStore.Set, encodeKV_size]
        rw [Nat.mod_eq_of_lt hlt]
        omega

/-- Opening a store establishes the index-bounds invariant — trivially on a
fresh file, and through the recovery scan on an existing one, provided the
scan's `uint32` position arithmetic does not wrap. -/
theorem NewDiskStore_inv (fe : Bool) (bytes : List Nat)
    (h : fe = true → LoadNoWrap bytes = true) :
    KDinv (NewDiskStore fe bytes).KeyDir (NewDiskStore fe bytes).writePos ∧
      (NewDiskStore fe bytes).writePos < u32 := by
  cases fe with
  | false => exact ⟨KDinv_nil 0, u32_pos⟩
  | true =>
      have hload := loadKeysLoopF_inv bytes.length bytes 0 [] (h rfl)
        (KDinv_nil 0) u32_pos
      simp only [NewDiskStore, if_pos, LoadKeys]
      exact ⟨hload.1, hload.2.2⟩

theorem applySets_one (d : DiskStore) (t : Nat) (k v : List Nat) :
    applySets d [(t, k, v)] = d.Set t k v := rfl

theorem Set_file (d : DiskStore) (t : Nat) (k v : List Nat) :
    (d.Set t k v).file = d.file ++ (encodeKV (t % u32) k v).2 := rfl

theorem Set_writePos (d : DiskStore) (t : Nat) (k v : List Nat) :
    (d.Set t k v).writePos =
      (d.writePos + (headerSize + k.length + v.length) % u32) % u32 := rfl

theorem Set_KeyDir (d : DiskStore) (t : Nat) (k v : List Nat) :
    (d.Set t k v).KeyDir = insertKD d.KeyDir k
      ⟨t % u32, d.writePos, (headerSize + k.length + v.length) % u32⟩ := rfl

theorem NewDiskStore_fresh :
    NewDiskStore false [] =
      { file := [], cursor := 0, writePos := 0, KeyDir := [] } := rfl

theorem NewDiskStore_fresh_file : (NewDiskStore false []).file = [] := rfl

theorem recSize_le_of_mem : ∀ {op : Op} {ops : List Op}, op ∈ ops →
    recSize op ≤ sumRecSizes ops := by
  intro op ops
  induction ops with
  | nil => intro h; cases h
  | cons op2 rest ih =>
      intro h
      rw [sumRecSizes_cons]
      rcases List.mem_cons.mp h with h1 | h1
      · rw [h1]
        exact Nat.le_add_right _ _
      · exact Nat.le_trans (ih h1) (Nat.le_add_left _ _)

theorem sumRecSizes_append (l1 l2 : List Op) :
    sumRecSizes (l1 ++ l2) = sumRecSizes l1 + sumRecSizes l2 := by
  simp [sumRecSizes]

theorem sumSizes32_mod (ops : List Op) :
    sumSizes32 ops % u32 = sumRecSizes ops % u32 := by
  induction ops with
  | nil => rfl
  | cons op rest ih =>
      rw [sumSizes32_cons, sumRecSizes_cons, Nat.add_mod, Nat.mod_mod, ih,
        ← Nat.add_mod]

/-- A `Get` hit whose entry points at an in-bounds byte range of the file
returns the decode of exactly that range, and only moves the handle's
offset. -/
theorem get_exact (d : DiskStore) (k : List Nat) (e : KeyEntry)
    (pre rec tail : List Nat) (hl : lookupKD d.KeyDir k = some e)
    (hfile : d.file = pre ++ (rec ++ tail)) (hoff : e.writeOffSet = pre.length)
    (hsz : e.totalSize = rec.length) (hnz : 0 < rec.length) :
    d.Get k = .ok (decodeKV rec).2.2
      { d with cursor := e.writeOffSet + rec.length } := by
  simp only [DiskStore.Get, hl]
  have hgt : ¬(0 < e.totalSize ∧ d.file.length ≤ e.writeOffSet) := by
    rintro ⟨_, h2⟩
    rw [hfile, hoff, List.length_append, List.length_append] at h2
    omega
  rw [if_neg hgt]
  have hchunk : (d.file.drop e.writeOffSet).take e.totalSize = rec := by
    rw [hfile, hoff, List.drop_left, hsz, List.take_left]
  rw [hchunk, padTo_eq_self hsz.symm]

/-- C3.  The claim asks that opening a database file that was truncated
mid-record surface a `RecoveryError` and refuse the open.  The code instead
accepts the open: here a valid two-record file truncated one byte before its
end (28 bytes down to 27) recovers into a usable store whose directory
silently contains only the first record's key, with no error signalled
anywhere (`LoadKeys` merely breaks out of its loop and returns no error, and
`NewDiskStore` can only fail when `os.OpenFile` itself fails). -/
theorem c3_truncated_open_silently_accepted :
    ((encodeKV 0 [107] [118]).2 ++ (encodeKV 0 [108] [119]).2).length = 28 ∧
    NewDiskStore true
        (((encodeKV 0 [107] [118]).2 ++ (encodeKV 0 [108] [119]).2).take 27) =
      { file := ((encodeKV 0 [107] [118]).2 ++
          (encodeKV 0 [108] [119]).2).take 27,
        cursor := 0, writePos := 14,
        KeyDir := [([107], ⟨0, 0, 14⟩)] } := by
  decide

/-- C4.  On a failing append, `Set` leaves the key directory untouched but
does not surface a `StorageError` to the caller: it prints a message and
terminates the whole process via `os.Exit(1)` (src/main.go line 175), and
its signature `Set(key, value string)` has no error return at all. -/
theorem c4_write_failure_exits_process (d : DiskStore) (t : Nat)
    (k v : List Nat) : d.SetWith t k v true = .exit 1 := rfl

/-- C5.  Codec round-trip: decoding the bytes produced by encoding a
(timestamp, key, value) triple with non-empty key and value whose lengths
fit the 32-bit header fields yields the original triple. -/
theorem c5_codec_round_trip (t : Nat) (k v : List Nat) (hk : k ≠ [])
    (hv : v ≠ []) (ht : t < u32) (hklen : k.length < u32)
    (hvlen : v.length < u32) : decodeKV (encodeKV t k v).2 = (t, k, v) :=
  decodeKV_encodeKV t k v ht hklen hvlen

theorem c5_witness : decodeKV (encodeKV 7 [1, 2] [3]).2 = (7, [1, 2], [3]) :=
  c5_codec_round_trip 7 [1, 2] [3] (by decide) (by decide) (by decide)
    (by decide) (by decide)

/-- C6.  A `Get` of a key absent from the key directory returns the empty
sentinel and never an error: the store is untouched and no failure path is
reachable on a miss. -/
theorem c6_miss_returns_sentinel (d : DiskStore) (k : List Nat)
    (h : lookupKD d.KeyDir k = none) : d.Get k = .ok [] d := by
  simp [DiskStore.Get, h]

theorem c6_witness :
    (NewDiskStore false []).Get [119] = .ok [] (NewDiskStore false []) :=
  c6_miss_returns_sentinel (NewDiskStore false []) [119] (by decide)

/-- C8.  After `Set(k, "")` succeeds, `Get(k)` returns the empty string —
exactly the same result `Get` gives for a key that is absent from the key
directory, so the miss sentinel is indistinguishable from a stored empty
value. -/
theorem c8_empty_value_indistinguishable_from_miss (d : DiskStore) (t : Nat)
    (k k2 : List Nat) (hwp : d.writePos = d.file.length)
    (hk : headerSize + k.length < u32)
    (hmiss : lookupKD d.KeyDir k2 = none) :
    ((d.Set t k []).Get k).valueOf = some [] ∧
      (d.Get k2).valueOf = some [] := by
  constructor
  · rw [get_set_last d t k [] hwp (by simpa using hk)]
    rfl
  · simp [DiskStore.Get, hmiss, GetOutcome.valueOf]

theorem c8_witness :
    (((NewDiskStore false []).Set 3 [107] []).Get [107]).valueOf = some [] ∧
      ((NewDiskStore false []).Get [50]).valueOf = some [] :=
  c8_empty_value_indistinguishable_from_miss (NewDiskStore false []) 3 [107]
    [50] (by decide) (by decide) (by decide)

/-- C10.  `Get` is read-only on the engine state: whenever it returns, the
key directory, `writePos` and the file are unchanged (only the file handle's
read offset may have moved), and a subsequent `Set` produces exactly the
store it would have produced without the intervening `Get`. -/
theorem c10_get_read_only (d : DiskStore) (k v : List Nat) (d2 : DiskStore)
    (t : Nat) (k2 v2 : List Nat) (h : d.Get k = .ok v d2) :
    d2.KeyDir = d.KeyDir ∧ d2.writePos = d.writePos ∧ d2.file = d.file ∧
      d2.Set t k2 v2 = d.Set t k2 v2 := by
  cases hl : lookupKD d.KeyDir k with
  | none =>
      simp only [DiskStore.Get, hl] at h
      rcases h with ⟨_, rfl⟩
      exact ⟨rfl, rfl, rfl, rfl⟩
  | some e =>
      simp only [DiskStore.Get, hl] at h
      split at h
      · cases h
      · rcases h with ⟨_, rfl⟩
        exact ⟨rfl, rfl, rfl, rfl⟩

theorem c10_witness :
    ((NewDiskStore false []).Set 7 [107] [118]).KeyDir =
        ((NewDiskStore false []).Set 7 [107] [118]).KeyDir ∧
      ((NewDiskStore false []).Set 7 [107] [118]).writePos =
        ((NewDiskStore false []).Set 7 [107] [118]).writePos ∧
      ((NewDiskStore false []).Set 7 [107] [118]).file =
        ((NewDiskStore false []).Set 7 [107] [118]).file ∧
      ((NewDiskStore false []).Set 7 [107] [118]).Set 1 [1] [2] =
        ((NewDiskStore false []).Set 7 [107] [118]).Set 1 [1] [2] :=
  c10_get_read_only ((NewDiskStore false []).Set 7 [107] [118]) [107] [118]
    ((NewDiskStore false []).Set 7 [107] [118]) 1 [1] [2] (by decide)

/-- C7 (amended).  After any sequence of successful `Set` calls on a store
opened on a fresh file, the file's size equals the sum of the records'
`headerSize + keySize + valueSize`, no previously written byte region is
rewritten (each intermediate file is an initial segment of the final one),
and `writePos` equals the current file length reduced modulo `2^32` — hence
equals the file length itself exactly as long as the total written size
stays below `2^32`, `writePos` being a `uint32`. -/
theorem c7_amended (ops1 ops2 : List Op) :
    (applySets (NewDiskStore false []) (ops1 ++ ops2)).file.length =
        sumRecSizes (ops1 ++ ops2) ∧
      (applySets (NewDiskStore false []) (ops1 ++ ops2)).writePos =
        (applySets (NewDiskStore false []) (ops1 ++ ops2)).file.length % u32 ∧
      (∃ tail, (applySets (NewDiskStore false []) ops1).file ++ tail =
        (applySets (NewDiskStore false []) (ops1 ++ ops2)).file) ∧
      (sumRecSizes (ops1 ++ ops2) < u32 →
        (applySets (NewDiskStore false []) (ops1 ++ ops2)).writePos =
          (applySets (NewDiskStore false []) (ops1 ++ ops2)).file.length) := by
  have hlen : (applySets (NewDiskStore false []) (ops1 ++ ops2)).file.length =
      sumRecSizes (ops1 ++ ops2) := by
    rw [applySets_file, NewDiskStore_fresh, List.nil_append, opsBytes_length]
  have hwp : (applySets (NewDiskStore false []) (ops1 ++ ops2)).writePos =
      (applySets (NewDiskStore false []) (ops1 ++ ops2)).file.length % u32 := by
    rw [applySets_writePos _ _ (by decide), hlen, NewDiskStore_fresh]
    rw [Nat.zero_add]
    exact sumSizes32_mod (ops1 ++ ops2)
  refine ⟨hlen, hwp, ⟨opsBytes ops2, ?_⟩, ?_⟩
  · rw [applySets_append, applySets_file ops2]
  · intro hsmall
    rw [hwp, hlen]
    exact Nat.mod_eq_of_lt hsmall

theorem c7_witness :
    (applySets (NewDiskStore false []) ([(0, [1], [2])] ++ [])).writePos =
      (applySets (NewDiskStore false [])
        ([(0, [1], [2])] ++ [])).file.length :=
  (c7_amended [(0, [1], [2])] []).2.2.2 (by decide)

/-- C7 (counterexample to the claim as stated).  `writePos` is a `uint32`
(src/main.go line 77): after `2^28` successful `Set` calls of 16 bytes each
on a fresh store, the file is `2^32` bytes long but `writePos` has wrapped
around to 0, so `writePos` does not equal the current file length. -/
theorem c7_counterexample :
    (applySets (NewDiskStore false [])
        (List.replicate 268435456 (0, [120], [1, 2, 3]))).file.length =
        4294967296 ∧
      (applySets (NewDiskStore false [])
        (List.replicate 268435456 (0, [120], [1, 2, 3]))).writePos = 0 ∧
      (applySets (NewDiskStore false [])
          (List.replicate 268435456 (0, [120], [1, 2, 3]))).writePos ≠
        (applySets (NewDiskStore false [])
          (List.replicate 268435456 (0, [120], [1, 2, 3]))).file.length := by
  have hlen : (applySets (NewDiskStore false [])
      (List.replicate 268435456 (0, [120], [1, 2, 3]))).file.length =
      4294967296 := by
    rw [applySets_file, NewDiskStore_fresh, List.nil_append, opsBytes_length,
      sumRecSizes_replicate]
    norm_num [recSize, headerSize]
  have hwp : (applySets (NewDiskStore false [])
      (List.replicate 268435456 (0, [120], [1, 2, 3]))).writePos = 0 := by
    rw [applySets_writePos _ _ (by decide), NewDiskStore_fresh,
      sumSizes32_replicate]
    norm_num [recSize, headerSize, u32]
  refine ⟨hlen, hwp, ?_⟩
  rw [hlen, hwp]
  norm_num

/-- C9 (amended).  In every store reachable by `NewDiskStore` followed by
successful `Set` calls, every key directory entry satisfies
`writeOffSet + totalSize ≤ writePos` — provided the `uint32` accumulation of
`writePos` never wraps, neither during the recovery scan nor over the `Set`
sequence (total size below `2^32`).  The invariant is established empty on a
fresh file, through `LoadKeys` on an existing one, and preserved by each
`Set`. -/
theorem c9_amended (fe : Bool) (bytes : List Nat) (ops : List Op)
    (hload : fe = true → LoadNoWrap bytes = true)
    (hsum : (NewDiskStore fe bytes).writePos + sumSizes32 ops < u32)
    (k : List Nat) (e : KeyEntry)
    (hlook : lookupKD (applySets (NewDiskStore fe bytes) ops).KeyDir k =
      some e) :
    e.writeOffSet + e.totalSize ≤
      (applySets (NewDiskStore fe bytes) ops).writePos :=
  applySets_inv ops (NewDiskStore fe bytes)
    (NewDiskStore_inv fe bytes hload).1 hsum k e hlook

theorem c9_witness :
    (⟨0, 0, 14⟩ : KeyEntry).writeOffSet + (⟨0, 0, 14⟩ : KeyEntry).totalSize ≤
      (applySets (NewDiskStore false []) [(0, [1], [2])]).writePos :=
  c9_amended false [] [(0, [1], [2])] (fun h => absurd h (by decide))
    (by decide) [1] ⟨0, 0, 14⟩ (by decide)

/-- C9 (counterexample to the claim as stated).  With `2^28` records of 16
bytes each written to a fresh store, the final entry for the key sits at
offset `2^32 - 16` while the wrapped `uint32` `writePos` is 0, so the entry
extends past `writePos`. -/
theorem c9_counterexample :
    lookupKD (applySets (NewDiskStore false [])
        (List.replicate 268435456 (0, [120], [1, 2, 3]))).KeyDir [120] =
      some ⟨0, 4294967280, 16⟩ ∧
    ¬((⟨0, 4294967280, 16⟩ : KeyEntry).writeOffSet +
        (⟨0, 4294967280, 16⟩ : KeyEntry).totalSize ≤
      (applySets (NewDiskStore false [])
        (List.replicate 268435456 (0, [120], [1, 2, 3]))).writePos) := by
  have hrep : List.replicate 268435456 ((0 : Nat), ([120] : List Nat),
      ([1, 2, 3] : List Nat)) =
      List.replicate 268435455 (0, [120], [1, 2, 3]) ++
        [(0, [120], [1, 2, 3])] := by
    rw [show (268435456 : Nat) = 268435455 + 1 by norm_num,
      List.replicate_succ']
  have hprior : (applySets (NewDiskStore false [])
      (List.replicate 268435455 (0, [120], [1, 2, 3]))).writePos =
      4294967280 := by
    rw [applySets_writePos _ _ (by decide), NewDiskStore_fresh,
      sumSizes32_replicate]
    norm_num [recSize, headerSize, u32]
  rw [hrep, applySets_append, applySets_one]
  constructor
  · rw [Set_KeyDir, lookupKD_insertKD_self, hprior]
    norm_num [u32, headerSize]
  · rw [Set_writePos, hprior]
    norm_num [u32, headerSize]

/-- C1 (amended).  Last-write-wins: after `Set(k, v1); Set(k, v2)` on an
open store (one whose `writePos` equals its file length), `Get(k)` returns
`v2`, the file now ends with the two appended records, its size has grown by
both records' encoded sizes, and the previous bytes are untouched — provided
the file length stays below `2^32` across the two appends (`writePos` and
the entry offsets are `uint32` values). -/
theorem c1_amended (d : DiskStore) (t1 t2 : Nat) (k v1 v2 : List Nat)
    (hwp : d.writePos = d.file.length)
    (h1 : d.file.length + (headerSize + k.length + v1.length) < u32)
    (h2 : headerSize + k.length + v2.length < u32) :
    ((d.Set t1 k v1).Set t2 k v2).Get k =
        .ok v2 ((d.Set t1 k v1).Set t2 k v2) ∧
      ((d.Set t1 k v1).Set t2 k v2).file =
        d.file ++ ((encodeKV (t1 % u32) k v1).2 ++
          (encodeKV (t2 % u32) k v2).2) ∧
      ((d.Set t1 k v1).Set t2 k v2).file.length =
        d.file.length + ((headerSize + k.length + v1.length) +
          (headerSize + k.length + v2.length)) ∧
      ∃ tail, d.file ++ tail = ((d.Set t1 k v1).Set t2 k v2).file := by
  have hd1 : (d.Set t1 k v1).writePos = (d.Set t1 k v1).file.length := by
    rw [Set_writePos, Set_file, List.length_append, encodeKV_bytes_length, hwp,
      Nat.mod_eq_of_lt (show headerSize + k.length + v1.length < u32 by omega)]
    exact Nat.mod_eq_of_lt (by omega)
  refine ⟨get_set_last _ t2 k v2 hd1 h2, ?_, ?_, ?_⟩
  · rw [Set_file, Set_file, List.append_assoc]
  · rw [Set_file, Set_file, List.append_assoc, List.length_append,
      List.length_append, encodeKV_bytes_length, encodeKV_bytes_length]
  · exact ⟨(encodeKV (t1 % u32) k v1).2 ++ (encodeKV (t2 % u32) k v2).2,
      by rw [Set_file, Set_file, List.append_assoc]⟩

theorem c1_witness :
    (((NewDiskStore false []).Set 1 [107] [97]).Set 2 [107] [98, 99]).Get
        [107] =
      .ok [98, 99]
        (((NewDiskStore false []).Set 1 [107] [97]).Set 2 [107] [98, 99]) :=
  (c1_amended (NewDiskStore false []) 1 2 [107] [97] [98, 99] (by decide)
    (by decide) (by decide)).1

/-- C1 (counterexample to the claim as stated).  On an open store whose file
holds `2^32 - 32` bytes (a reachable state with `writePos` equal to the file
length), `Set(k, v1)` with a 32-byte record wraps the `uint32` `writePos` to
0, so the following `Set(k, v2)` indexes `k` at offset 0 and `Get(k)`
decodes the first record of the file — returning `[1, 2, 3]`, not `v2 =
[5, 6, 7]`. -/
theorem c1_counterexample :
    (applySets (NewDiskStore false [])
        (List.replicate 268435454 (0, [120], [1, 2, 3]))).writePos =
      (applySets (NewDiskStore false [])
        (List.replicate 268435454 (0, [120], [1, 2, 3]))).file.length ∧
    ((((applySets (NewDiskStore false [])
          (List.replicate 268435454 (0, [120], [1, 2, 3]))).Set 0 [107]
        (List.replicate 19 0)).Set 0 [107] [5, 6, 7]).Get [107]).valueOf =
      some [1, 2, 3] ∧
    some ([1, 2, 3] : List Nat) ≠ some [5, 6, 7] := by
  have hwp : (applySets (NewDiskStore false [])
      (List.replicate 268435454 (0, [120], [1, 2, 3]))).writePos =
      4294967264 := by
    rw [applySets_writePos _ _ (by decide), NewDiskStore_fresh,
      sumSizes32_replicate]
    norm_num [recSize, headerSize, u32]
  have hlen : (applySets (NewDiskStore false [])
      (List.replicate 268435454 (0, [120], [1, 2, 3]))).file.length =
      4294967264 := by
    rw [applySets_file, NewDiskStore_fresh, List.nil_append, opsBytes_length,
      sumRecSizes_replicate]
    norm_num [recSize, headerSize]
  refine ⟨by rw [hwp, hlen], ?_, by decide⟩
  have hl : lookupKD ((((applySets (NewDiskStore false [])
      (List.replicate 268435454 (0, [120], [1, 2, 3]))).Set 0 [107]
      (List.replicate 19 0)).Set 0 [107] [5, 6, 7])).KeyDir [107] =
      some ⟨0, 0, 16⟩ := by
    rw [Set_KeyDir, lookupKD_insertKD_self, Set_writePos, hwp]
    norm_num [u32, headerSize]
  have hfile : ((((applySets (NewDiskStore false [])
      (List.replicate 268435454 (0, [120], [1, 2, 3]))).Set 0 [107]
      (List.replicate 19 0)).Set 0 [107] [5, 6, 7])).file =
      [] ++ ((encodeKV (0 % u32) [120] [1, 2, 3]).2 ++
        (opsBytes (List.replicate 268435453 (0, [120], [1, 2, 3])) ++
          ((encodeKV (0 % u32) [107] (List.replicate 19 0)).2 ++
            (encodeKV (0 % u32) [107] [5, 6, 7]).2))) := by
    rw [Set_file, Set_file, applySets_file, NewDiskStore_fresh_file]
    rw [show (268435454 : Nat) = 268435453 + 1 by norm_num,
      List.replicate_succ, opsBytes_cons_mk]
    rw [List.nil_append, List.nil_append, List.append_assoc,
      List.append_assoc]
  have hget := get_exact _ [107] ⟨0, 0, 16⟩ []
    (encodeKV (0 % u32) [120] [1, 2, 3]).2
    (opsBytes (List.replicate 268435453 (0, [120], [1, 2, 3])) ++
      ((encodeKV (0 % u32) [107] (List.replicate 19 0)).2 ++
        (encodeKV (0 % u32) [107] [5, 6, 7]).2))
    hl hfile rfl (by decide) (by decide)
  rw [hget]
  simp only [GetOutcome.valueOf, Option.some.injEq]
  decide

/-- C2 (amended).  Persistence across reopen: after any fresh-store run of
`Set` calls ending in `Set(k, v)`, closing and reopening on the same path
rebuilds through recovery exactly the key directory and `writePos` of the
live store, and `Get(k)` on the reopened store returns `v` — provided the
log's total size stays below `2^32` (the `uint32` offset arithmetic of
`writePos`, replayed identically during recovery, wraps past that). -/
theorem c2_amended (ops : List Op) (t : Nat) (k v : List Nat)
    (hlen : sumRecSizes (ops ++ [(t, k, v)]) < u32) :
    (NewDiskStore true ((applySets (NewDiskStore false [])
        (ops ++ [(t, k, v)])).Close)).KeyDir =
      (applySets (NewDiskStore false []) (ops ++ [(t, k, v)])).KeyDir ∧
    (NewDiskStore true ((applySets (NewDiskStore false [])
        (ops ++ [(t, k, v)])).Close)).writePos =
      (applySets (NewDiskStore false []) (ops ++ [(t, k, v)])).writePos ∧
    ((NewDiskStore true ((applySets (NewDiskStore false [])
        (ops ++ [(t, k, v)])).Close)).Get k).valueOf = some v := by
  have hmem : ((t, k, v) : Op) ∈ ops ++ [(t, k, v)] :=
    List.mem_append_right _ (by simp)
  have hsz : headerSize + k.length + v.length < u32 := by
    have hr := recSize_le_of_mem hmem
    have h2 : recSize (t, k, v) = headerSize + k.length + v.length := rfl
    omega
  have hbounds : ∀ op ∈ ops ++ [(t, k, v)],
      op.2.1.length < u32 ∧ op.2.2.length < u32 := by
    intro op hop
    have hr := recSize_le_of_mem hop
    have h2 : recSize op = headerSize + op.2.1.length + op.2.2.length := rfl
    simp only [headerSize] at h2
    omega
  have hclose : (applySets (NewDiskStore false [])
      (ops ++ [(t, k, v)])).Close =
      (applySets (NewDiskStore false []) (ops ++ [(t, k, v)])).file := rfl
  rw [hclose, NewDiskStore_reopen _ hbounds]
  refine ⟨rfl, rfl, ?_⟩
  have hops_lt : sumRecSizes ops < u32 := by
    rw [sumRecSizes_append] at hlen
    omega
  have hpw : (applySets (NewDiskStore false []) ops).writePos =
      sumRecSizes ops := by
    rw [applySets_writePos _ _ (by decide), NewDiskStore_fresh, Nat.zero_add,
      sumSizes32_eq_sumRecSizes _ hops_lt]
    exact Nat.mod_eq_of_lt hops_lt
  have hl : lookupKD (applySets (NewDiskStore false [])
      (ops ++ [(t, k, v)])).KeyDir k =
      some ⟨t % u32, sumRecSizes ops, headerSize + k.length + v.length⟩ := by
    rw [applySets_append, applySets_one, Set_KeyDir, lookupKD_insertKD_self,
      hpw, Nat.mod_eq_of_lt hsz]
  have hfile : opsBytes (ops ++ [(t, k, v)]) =
      opsBytes ops ++ ((encodeKV (t % u32) k v).2 ++ []) := by
    rw [opsBytes_append]
    simp [opsBytes]
  have hget := get_exact
    { file := opsBytes (ops ++ [(t, k, v)]), cursor := 0,
      writePos := (applySets (NewDiskStore false [])
        (ops ++ [(t, k, v)])).writePos,
      KeyDir := (applySets (NewDiskStore false [])
        (ops ++ [(t, k, v)])).KeyDir } k
    ⟨t % u32, sumRecSizes ops, headerSize + k.length + v.length⟩
    (opsBytes ops) (encodeKV (t % u32) k v).2 [] hl hfile
    (by simp [opsBytes_length])
    (by simp [encodeKV_bytes_length])
    (by rw [encodeKV_bytes_length]; simp [headerSize])
  rw [hget]
  simp only [GetOutcome.valueOf, Option.some.injEq]
  rw [decodeKV_encodeKV _ _ _ (Nat.mod_lt _ u32_pos) (by omega) (by omega)]

theorem c2_witness :
    ((NewDiskStore true ((applySets (NewDiskStore false [])
        ([] ++ [(1, [107], [118])])).Close)).Get [107]).valueOf =
      some [118] :=
  (c2_amended [] 1 [107] [118] (by decide)).2.2

/-- A `Get` against the store reopened on the bytes of a fresh-store run
returns the decode of whichever byte range the rebuilt directory entry
denotes. -/
theorem reopened_get (ops : List Op) (k : List Nat) (e : KeyEntry)
    (pre rec tail : List Nat)
    (hbounds : ∀ op ∈ ops, op.2.1.length < u32 ∧ op.2.2.length < u32)
    (hl : lookupKD (applySets (NewDiskStore false []) ops).KeyDir k = some e)
    (hfile : opsBytes ops = pre ++ (rec ++ tail))
    (hoff : e.writeOffSet = pre.length) (hsz : e.totalSize = rec.length)
    (hnz : 0 < rec.length) :
    ((NewDiskStore true ((applySets (NewDiskStore false [])
      ops).Close)).Get k).valueOf = some (decodeKV rec).2.2 := by
  have hclose : (applySets (NewDiskStore false []) ops).Close =
      (applySets (NewDiskStore false []) ops).file := rfl
  rw [hclose, NewDiskStore_reopen ops hbounds]
  have hget := get_exact
    { file := opsBytes ops, cursor := 0,
      writePos := (applySets (NewDiskStore false []) ops).writePos,
      KeyDir := (applySets (NewDiskStore false []) ops).KeyDir } k e
    pre rec tail hl hfile hoff hsz hnz
  rw [hget]
  rfl

/-- C2 (counterexample to the claim as stated).  A fresh-store run of `2^28`
16-byte records followed by `Set([107], [9])` crosses `2^32` bytes; on
reopen, recovery replays the same wrapping `uint32` arithmetic and indexes
`[107]` at offset 0 with size 14, so `Get([107])` decodes the head of the
file's first record and returns `[1]`, not the value `[9]` that was set. -/
theorem c2_counterexample :
    ((NewDiskStore true ((applySets (NewDiskStore false [])
        (List.replicate 268435456 (0, [120], [1, 2, 3]) ++
          [(0, [107], [9])])).Close)).Get [107]).valueOf = some [1] ∧
    some ([1] : List Nat) ≠ some [9] := by
  refine ⟨?_, by decide⟩
  have hbounds : ∀ op ∈ List.replicate 268435456
      ((0 : Nat), ([120] : List Nat), ([1, 2, 3] : List Nat)) ++
      [(0, [107], [9])], op.2.1.length < u32 ∧ op.2.2.length < u32 := by
    intro op hop
    rcases List.mem_append.mp hop with h | h
    · rw [List.eq_of_mem_replicate h]
      exact ⟨by decide, by decide⟩
    · rw [List.mem_singleton.mp h]
      exact ⟨by decide, by decide⟩
  have hpw : (applySets (NewDiskStore false [])
      (List.replicate 268435456 (0, [120], [1, 2, 3]))).writePos = 0 := by
    rw [applySets_writePos _ _ (by decide), NewDiskStore_fresh,
      sumSizes32_replicate]
    norm_num [recSize, headerSize, u32]
  have hl : lookupKD (applySets (NewDiskStore false [])
      (List.replicate 268435456 (0, [120], [1, 2, 3]) ++
        [(0, [107], [9])])).KeyDir [107] = some ⟨0, 0, 14⟩ := by
    rw [applySets_append, applySets_one, Set_KeyDir, lookupKD_insertKD_self,
      hpw]
    norm_num [u32, headerSize]
  have hfile : opsBytes (List.replicate 268435456 (0, [120], [1, 2, 3]) ++
      [(0, [107], [9])]) =
      [] ++ ((encodeKV (0 % u32) [120] [1, 2, 3]).2.take 14 ++
        ((encodeKV (0 % u32) [120] [1, 2, 3]).2.drop 14 ++
          (opsBytes (List.replicate 268435455 (0, [120], [1, 2, 3])) ++
            opsBytes [((0 : Nat), ([107] : List Nat),
              ([9] : List Nat))]))) := by
    rw [opsBytes_append]
    rw [show (268435456 : Nat) = 268435455 + 1 by norm_num,
      List.replicate_succ, opsBytes_cons_mk]
    rw [List.nil_append]
    conv_rhs => rw [← List.append_assoc, List.take_append_drop]
    rw [List.append_assoc]
  have hrg := reopened_get
    (List.replicate 268435456 (0, [120], [1, 2, 3]) ++ [(0, [107], [9])])
    [107] ⟨0, 0, 14⟩ []
    ((encodeKV (0 % u32) [120] [1, 2, 3]).2.take 14)
    ((encodeKV (0 % u32) [120] [1, 2, 3]).2.drop 14 ++
      (opsBytes (List.replicate 268435455 (0, [120], [1, 2, 3])) ++
        opsBytes [((0 : Nat), ([107] : List Nat), ([9] : List Nat))]))
    hbounds hl hfile rfl (by decide) (by decide)
  rw [hrg]
  decide

end CaskDB
